import Mathlib

/-!
Verification of the step-recording sorting visualizer.

The embedding models `src/algo-visualizer/src/lib/algorithms/sortingAlgorithms.ts`
(the step recorders `bubbleSort` and `quickSort`) and the playback controller in
`src/algo-visualizer/src/components/visualizations/SortingVisualizer.tsx`.

JavaScript arrays of numbers are modelled as `List Int`; the integer loop
counters of the source (which in the quick sort genuinely take negative values,
e.g. `i = low - 1` and `high = -1`) are modelled as `Int`.  Array reads
`arr[k]` are modelled by `getI`; every read performed by the recorders is
in bounds, which the lemmas below track explicitly.  The destructuring swap
`[arr[p], arr[q]] = [arr[q], arr[p]]` (both right-hand sides read before any
write) is modelled by `swapI`.
-/

namespace AlgoViz

open List

/-- A single step of the visualization, from `sortingAlgorithms.ts`:
`{ array: number[]; comparing: [number, number] | null; swapping: [number, number] | null }`. -/
structure SortStep where
  array : List Int
  comparing : Option (Int × Int)
  swapping : Option (Int × Int)
deriving Repr, DecidableEq

/-- Array read `a[i]`.  All reads performed by the recorders are in bounds. -/
def getI (a : List Int) (i : Int) : Int := a.getD i.toNat 0

/-- The swap `[a[p], a[q]] = [a[q], a[p]]`: both values are read from the
original array before either write. -/
def swapI (a : List Int) (p q : Int) : List Int :=
  (a.set p.toNat (getI a q)).set q.toNat (getI a p)

theorem swapI_length (a : List Int) (p q : Int) : (swapI a p q).length = a.length := by
  simp [swapI]

theorem getD_set_self (l : List Int) (i : Nat) (x : Int) (h : i < l.length) :
    (l.set i x).getD i 0 = x := by
  rw [List.getD_eq_getElem _ 0 (by simpa using h)]
  simp

theorem getD_set_ne (l : List Int) (i j : Nat) (x : Int) (h : i ≠ j) :
    (l.set i x).getD j 0 = l.getD j 0 := by
  by_cases hj : j < l.length
  · rw [List.getD_eq_getElem _ 0 (by simpa using hj), List.getD_eq_getElem _ 0 hj]
    simp [List.getElem_set_ne h]
  · rw [List.getD_eq_default _ 0 (by simpa using Nat.le_of_not_lt hj),
      List.getD_eq_default _ 0 (Nat.le_of_not_lt hj)]

theorem getI_swapI_fst (a : List Int) (p q : Int) (hp0 : 0 ≤ p) (hq0 : 0 ≤ q)
    (hp : p < (a.length : Int)) (hq : q < (a.length : Int)) :
    getI (swapI a p q) p = getI a q := by
  unfold swapI getI
  by_cases hpq : p.toNat = q.toNat
  · rw [hpq, getD_set_self _ _ _ (by simp; omega)]
  · rw [getD_set_ne _ _ _ _ (Ne.symm hpq), getD_set_self _ _ _ (by omega)]

theorem getI_swapI_snd (a : List Int) (p q : Int) (hq0 : 0 ≤ q)
    (hq : q < (a.length : Int)) :
    getI (swapI a p q) q = getI a p := by
  unfold swapI getI
  rw [getD_set_self _ _ _ (by simp; omega)]

theorem getI_swapI_other (a : List Int) (p q k : Int) (hk0 : 0 ≤ k) (hp0 : 0 ≤ p)
    (hq0 : 0 ≤ q) (hkp : k ≠ p) (hkq : k ≠ q) :
    getI (swapI a p q) k = getI a k := by
  unfold swapI getI
  rw [getD_set_ne _ _ _ _ (by omega), getD_set_ne _ _ _ _ (by omega)]

theorem getD_mem (l : List Int) (k : Nat) (h : k < l.length) : l.getD k 0 ∈ l := by
  rw [List.getD_eq_getElem l 0 h]; exact List.getElem_mem h

/-- Key permutation fact behind `swapI`: replacing position `q` of `t` by `x`
while moving the old `t[q]` to the front is a permutation of `x :: t`. -/
theorem getD_cons_set_perm (t : List Int) :
    ∀ (q : Nat) (x : Int), q < t.length → t.getD q 0 :: t.set q x ~ x :: t := by
  induction t with
  | nil => intro q x h; simp at h
  | cons y t ih =>
    intro q x h
    cases q with
    | zero => simpa using List.Perm.swap x y t
    | succ q =>
      have hq : q < t.length := by simpa using h
      calc t.getD q 0 :: (y :: t.set q x)
          ~ y :: (t.getD q 0 :: t.set q x) := List.Perm.swap y _ _
        _ ~ y :: (x :: t) := (ih q x hq).cons y
        _ ~ x :: (y :: t) := List.Perm.swap x y t

theorem swapNat_perm (a : List Int) (p q : Nat) (hp : p < a.length) (hq : q < a.length) :
    (a.set p (a.getD q 0)).set q (a.getD p 0) ~ a := by
  induction a generalizing p q with
  | nil => simp at hp
  | cons h t ih =>
    cases p with
    | zero =>
      cases q with
      | zero => simp
      | succ q =>
        have hq' : q < t.length := by simpa using hq
        simpa using getD_cons_set_perm t q h hq'
    | succ p =>
      have hp' : p < t.length := by simpa using hp
      cases q with
      | zero =>
        simpa using getD_cons_set_perm t p h hp'
      | succ q =>
        have hq' : q < t.length := by simpa using hq
        simpa using (ih p q hp' hq').cons h

theorem swapI_perm (a : List Int) (p q : Int) (hp0 : 0 ≤ p) (hq0 : 0 ≤ q)
    (hp : p < (a.length : Int)) (hq : q < (a.length : Int)) :
    swapI a p q ~ a := by
  unfold swapI getI
  exact swapNat_perm a p.toNat q.toNat (by omega) (by omega)

/-! ## The bubble sort recorder

Embedding of `bubbleSort` from `sortingAlgorithms.ts`.  The two nested `for`
loops become `bubbleOuter` (over `i`) and `bubbleInner` (over `j`); `steps`
is the accumulator that the source grows with `steps.push(...)`.  Each inner
iteration pushes the comparison step and then, when `array[j] > array[j+1]`,
pushes the swap step (pre-swap array), performs the swap, and pushes the
cleared step (post-swap array); the comparison push, common to both branches
in the source, is written in each branch here. -/

/-- Inner loop `for (let j = 0; j < n - i - 1; j++)` of `bubbleSort`. -/
def bubbleInner (n i : Int) (j : Int) (arr : List Int) (steps : List SortStep) :
    List Int × List SortStep :=
  if _h : j < n - i - 1 then
    if getI arr j > getI arr (j + 1) then
      bubbleInner n i (j + 1) (swapI arr j (j + 1))
        (steps ++ [⟨arr, some (j, j + 1), none⟩] ++ [⟨arr, none, some (j, j + 1)⟩]
          ++ [⟨swapI arr j (j + 1), none, none⟩])
    else
      bubbleInner n i (j + 1) arr (steps ++ [⟨arr, some (j, j + 1), none⟩])
  else (arr, steps)
termination_by (n - i - 1 - j).toNat
decreasing_by all_goals omega

/-- Outer loop `for (let i = 0; i < n - 1; i++)` of `bubbleSort`. -/
def bubbleOuter (n i : Int) (arr : List Int) (steps : List SortStep) :
    List Int × List SortStep :=
  if _h : i < n - 1 then
    bubbleOuter n (i + 1) (bubbleInner n i 0 arr steps).1 (bubbleInner n i 0 arr steps).2
  else (arr, steps)
termination_by (n - 1 - i).toNat
decreasing_by all_goals omega

/-- `bubbleSort` from `sortingAlgorithms.ts`: runs the passes on a working
copy of the input and returns the recorded steps. -/
def bubbleSort (inputArray : List Int) : List SortStep :=
  (bubbleOuter (inputArray.length : Int) 0 inputArray []).2

/-! ## The quick sort recorder

Embedding of `quickSort` from `sortingAlgorithms.ts` (Lomuto partition with
the last element as pivot).  The `for (let j = low; j < high; j++)` loop of
`partition` becomes `partLoop`; the code after the loop (the final pivot
swap with its two pushes) is the `else` branch of `partLoop`, so
`partition arr low high steps` returns the mutated array, the grown step
list, and the returned pivot index `i + 1`. -/

/-- The partition loop together with the final pivot swap of `partition`. -/
def partLoop (high pivot : Int) (j i : Int) (arr : List Int) (steps : List SortStep) :
    List Int × List SortStep × Int :=
  if _h : j < high then
    if getI arr j ≤ pivot then
      partLoop high pivot (j + 1) (i + 1) (swapI arr (i + 1) j)
        (steps ++ [⟨arr, some (j, high), none⟩] ++ [⟨arr, none, some (i + 1, j)⟩]
          ++ [⟨swapI arr (i + 1) j, none, none⟩])
    else
      partLoop high pivot (j + 1) i arr (steps ++ [⟨arr, some (j, high), none⟩])
  else
    (swapI arr (i + 1) high,
      steps ++ [⟨arr, none, some (i + 1, high)⟩] ++ [⟨swapI arr (i + 1) high, none, none⟩],
      i + 1)
termination_by (high - j).toNat
decreasing_by all_goals omega

/-- `partition(arr, low, high)`: `pivot = arr[high]`, `i = low - 1`, then the
loop from `j = low`. -/
def partition (arr : List Int) (low high : Int) (steps : List SortStep) :
    List Int × List SortStep × Int :=
  partLoop high (getI arr high) low (low - 1) arr steps

/-- The returned pivot position lies in `(i, high]` (the loop only ever
increments `i` while `i < j ≤ high`). -/
theorem partLoop_res_bounds (high pivot : Int) :
    ∀ j i arr steps, i < j → j ≤ high →
      i + 1 ≤ (partLoop high pivot j i arr steps).2.2 ∧
        (partLoop high pivot j i arr steps).2.2 ≤ high := by
  intro j i arr steps
  induction j, i, arr, steps using partLoop.induct high pivot with
  | case1 j i arr steps hj hle ih =>
    intro h1 h2
    rw [partLoop]
    simp only [dif_pos hj, if_pos hle]
    have := ih (by omega) (by omega)
    omega
  | case2 j i arr steps hj hle ih =>
    intro h1 h2
    rw [partLoop]
    simp only [dif_pos hj, if_neg hle]
    have := ih (by omega) (by omega)
    omega
  | case3 j i arr steps hj =>
    intro h1 h2
    rw [partLoop]
    simp only [dif_neg hj]
    omega

/-- `partition` returns a pivot position in `[low, high]` whenever `low < high`. -/
theorem partition_res_bounds (arr : List Int) (low high : Int) (steps : List SortStep)
    (h : low < high) :
    low ≤ (partition arr low high steps).2.2 ∧ (partition arr low high steps).2.2 ≤ high := by
  have := partLoop_res_bounds high (getI arr high) low (low - 1) arr steps (by omega) (by omega)
  unfold partition
  omega

/-- `quickSortHelper(arr, low, high)`: partition, then recurse on the left and
right parts of the range. -/
def quickSortHelper (arr : List Int) (low high : Int) (steps : List SortStep) :
    List Int × List SortStep :=
  if _h : low < high then
    match _hp : partition arr low high steps with
    | (arr1, steps1, p) =>
      match quickSortHelper arr1 low (p - 1) steps1 with
      | (arr2, steps2) => quickSortHelper arr2 (p + 1) high steps2
  else (arr, steps)
termination_by (high - low).toNat
decreasing_by
  · have := partition_res_bounds arr low high steps _h
    rw [_hp] at this
    simp at this
    omega
  · have := partition_res_bounds arr low high steps _h
    rw [_hp] at this
    simp at this
    omega

/-- `quickSort` from `sortingAlgorithms.ts`. -/
def quickSort (inputArray : List Int) : List SortStep :=
  (quickSortHelper inputArray 0 ((inputArray.length : Int) - 1) []).2

/-! ## The playback controller

Embedding of the stateful part of `SortingVisualizer.tsx`.  Each user
operation (or timer firing) is an event handler updating the component state;
React then re-renders and runs the effects.  The animation effect
(lines 46-59) synchronously forces `isPlaying := false` whenever it observes
`currentStep >= sortSteps.length - 1` while playing, so one controller
operation is modelled as the handler followed by that effect.  The handlers
of disabled buttons cannot fire, which is modelled by guarding each handler
with its button's `disabled` condition. -/

/-- `type AlgorithmType = 'bubble' | 'quick'`. -/
inductive AlgorithmType where
  | bubble
  | quick
deriving Repr, DecidableEq

/-- Dispatch of the recompute effect: `algorithm === 'bubble' ? bubbleSort(...) : quickSort(...)`. -/
def runAlgorithm : AlgorithmType → List Int → List SortStep
  | .bubble, a => bubbleSort a
  | .quick, a => quickSort a

/-- The component state the controller invariant speaks about (`speed` and
`arraySize` do not enter the invariant). -/
structure PlaybackState where
  array : List Int
  sortSteps : List SortStep
  currentStep : Int
  isPlaying : Bool
  algorithm : AlgorithmType
deriving Repr, DecidableEq

/-- The synchronous branch of the animation `useEffect`: while playing with
`currentStep >= sortSteps.length - 1`, it calls `setIsPlaying(false)`. -/
def runEffect (s : PlaybackState) : PlaybackState :=
  if s.isPlaying = true ∧ (s.sortSteps.length : Int) - 1 ≤ s.currentStep then
    { s with isPlaying := false }
  else s

/-- `startSort` (Play button, disabled while playing): if
`currentStep >= sortSteps.length - 1` reset the index to `-1`, then start. -/
def doPlay (s : PlaybackState) : PlaybackState :=
  if s.isPlaying = true then s
  else if (s.sortSteps.length : Int) - 1 ≤ s.currentStep then
    { s with currentStep := -1, isPlaying := true }
  else { s with isPlaying := true }

/-- `pauseSort` (Pause button, disabled unless playing). -/
def doPause (s : PlaybackState) : PlaybackState :=
  if s.isPlaying = true then { s with isPlaying := false } else s

/-- A firing of the animation timeout: it is scheduled only while playing
with `currentStep < sortSteps.length - 1`, and advances the index by one. -/
def doTick (s : PlaybackState) : PlaybackState :=
  if s.isPlaying = true ∧ s.currentStep < (s.sortSteps.length : Int) - 1 then
    { s with currentStep := s.currentStep + 1 }
  else s

/-- Previous Step button: `setCurrentStep(prev => Math.max(0, prev - 1))`,
disabled when `currentStep <= 0`. -/
def doPrev (s : PlaybackState) : PlaybackState :=
  if s.currentStep ≤ 0 then s
  else { s with currentStep := max 0 (s.currentStep - 1) }

/-- Next Step button: `setCurrentStep(prev => Math.min(sortSteps.length - 1, prev + 1))`,
disabled when `currentStep >= sortSteps.length - 1`. -/
def doNext (s : PlaybackState) : PlaybackState :=
  if (s.sortSteps.length : Int) - 1 ≤ s.currentStep then s
  else { s with currentStep := min ((s.sortSteps.length : Int) - 1) (s.currentStep + 1) }

/-- `resetArray` with the freshly generated array, followed by the recompute
effect (lines 62-74): playback stops, the index returns to `-1`, and the
steps are regenerated (the recompute effect early-returns on an empty
array, leaving the cleared step list). -/
def doReset (newArray : List Int) (s : PlaybackState) : PlaybackState :=
  { s with
    array := newArray,
    sortSteps := if newArray = [] then [] else runAlgorithm s.algorithm newArray,
    currentStep := -1,
    isPlaying := false }

/-- Selecting an algorithm, followed by the recompute effect (which
early-returns when the array is empty). -/
def doSelectAlgorithm (alg : AlgorithmType) (s : PlaybackState) : PlaybackState :=
  if s.array = [] then { s with algorithm := alg }
  else { s with
    algorithm := alg,
    sortSteps := runAlgorithm alg s.array,
    currentStep := -1 }

/-- The controller operations: play, pause, timer tick, step forward, step
backward, reset/regenerate, and algorithm selection. -/
inductive Action where
  | play
  | pause
  | tick
  | stepForward
  | stepBackward
  | reset (newArray : List Int)
  | selectAlgorithm (alg : AlgorithmType)

/-- One controller operation: the handler (or timer callback) followed by the
animation effect that React runs after the commit. -/
def controllerStep (s : PlaybackState) : Action → PlaybackState
  | .play => runEffect (doPlay s)
  | .pause => runEffect (doPause s)
  | .tick => runEffect (doTick s)
  | .stepForward => runEffect (doNext s)
  | .stepBackward => runEffect (doPrev s)
  | .reset newArray => runEffect (doReset newArray s)
  | .selectAlgorithm alg => runEffect (doSelectAlgorithm alg s)

/-- The initial component state: empty array, no steps, index `-1`, paused. -/
def initState : PlaybackState := ⟨[], [], -1, false, .bubble⟩

/-- The controller invariant:
`-1 ≤ currentStep ≤ sortSteps.length - 1`, and `isPlaying` is false whenever
`currentStep = sortSteps.length - 1`. -/
def ControllerInv (s : PlaybackState) : Prop :=
  -1 ≤ s.currentStep ∧ s.currentStep ≤ (s.sortSteps.length : Int) - 1 ∧
    (s.currentStep = (s.sortSteps.length : Int) - 1 → s.isPlaying = false)

/-! ## The derived current view -/

/-- `currentArray` (`SortingVisualizer.tsx` line 82): show the step's array
when `0 <= currentStep < sortSteps.length`, else fall back to the base array. -/
def currentArray (sortSteps : List SortStep) (array : List Int) (currentStep : Int) : List Int :=
  if 0 ≤ currentStep ∧ currentStep < (sortSteps.length : Int) then
    (sortSteps.getD currentStep.toNat ⟨[], none, none⟩).array
  else array

/-- `currentComparing` (line 86). -/
def currentComparing (sortSteps : List SortStep) (currentStep : Int) : Option (Int × Int) :=
  if 0 ≤ currentStep ∧ currentStep < (sortSteps.length : Int) then
    (sortSteps.getD currentStep.toNat ⟨[], none, none⟩).comparing
  else none

/-- `currentSwapping` (line 90). -/
def currentSwapping (sortSteps : List SortStep) (currentStep : Int) : Option (Int × Int) :=
  if 0 ≤ currentStep ∧ currentStep < (sortSteps.length : Int) then
    (sortSteps.getD currentStep.toNat ⟨[], none, none⟩).swapping
  else none

/-- After the animation effect runs, the `isPlaying` clause of the invariant
holds automatically; only the index bounds are needed. -/
theorem runEffect_inv (t : PlaybackState) (ht1 : -1 ≤ t.currentStep)
    (ht2 : t.currentStep ≤ (t.sortSteps.length : Int) - 1) :
    ControllerInv (runEffect t) := by
  unfold runEffect ControllerInv
  split_ifs with hc
  · exact ⟨ht1, ht2, fun _ => rfl⟩
  · refine ⟨ht1, ht2, fun he => ?_⟩
    rcases not_and_or.mp hc with hp | hl
    · simpa using hp
    · exact absurd he (by omega)

/-- Every single controller operation preserves the invariant. -/
theorem controllerStep_inv (s : PlaybackState) (a : Action) (h : ControllerInv s) :
    ControllerInv (controllerStep s a) := by
  obtain ⟨h1, h2, h3⟩ := h
  cases a with
  | play =>
    apply runEffect_inv <;> (unfold doPlay; split_ifs <;> (try simp) <;> omega)
  | pause =>
    apply runEffect_inv <;> (unfold doPause; split_ifs <;> (try simp) <;> omega)
  | tick =>
    apply runEffect_inv <;> (unfold doTick; split_ifs <;> (try simp) <;> omega)
  | stepForward =>
    apply runEffect_inv <;> (unfold doNext; split_ifs <;> (try simp) <;> omega)
  | stepBackward =>
    apply runEffect_inv <;> (unfold doPrev; split_ifs <;> (try simp) <;> omega)
  | reset newArray =>
    apply runEffect_inv <;> (unfold doReset; split_ifs <;> (try simp) <;> omega)
  | selectAlgorithm alg =>
    apply runEffect_inv <;> (unfold doSelectAlgorithm; split_ifs <;> (try simp) <;> omega)

/-- The invariant holds in every state reachable from the initial state. -/
theorem reachable_inv (acts : List Action) : ControllerInv (acts.foldl controllerStep initState) := by
  have init : ControllerInv initState := by
    refine ⟨by simp [initState], by simp [initState], by simp [initState]⟩
  have main : ∀ (acts : List Action) (s : PlaybackState),
      ControllerInv s → ControllerInv (acts.foldl controllerStep s) := by
    intro acts
    induction acts with
    | nil => intro s hs; simpa using hs
    | cons a as ih =>
      intro s hs
      exact ih (controllerStep s a) (controllerStep_inv s a hs)
  exact main acts initState init

/-! ## Which steps the recorders push

`bubbleInner` pushes only steps of three shapes: a comparison of the
adjacent pair `(j, j+1)`, a swap of `(j, j+1)`, or a cleared step;
`partLoop` pushes comparisons `(j, high)` with `j < high`, swaps, and
cleared steps.  The following lemmas let any property of those shapes be
carried through the loops. -/

theorem bubbleInner_steps_pred (n i : Int) (Q : SortStep → Prop)
    (hc : ∀ (a : List Int) (p : Int), Q ⟨a, some (p, p + 1), none⟩)
    (hw : ∀ (a : List Int) (p : Int), Q ⟨a, none, some (p, p + 1)⟩)
    (ha : ∀ a : List Int, Q ⟨a, none, none⟩) :
    ∀ j arr steps, (∀ s ∈ steps, Q s) → ∀ s ∈ (bubbleInner n i j arr steps).2, Q s := by
  intro j arr steps
  induction j, arr, steps using bubbleInner.induct n i with
  | case1 j arr steps h hgt ih =>
    intro hst s hs
    rw [bubbleInner] at hs
    simp only [dif_pos h, if_pos hgt] at hs
    refine ih ?_ s hs
    intro t ht
    rcases List.mem_append.mp ht with ht1 | ht2
    · rcases List.mem_append.mp ht1 with ht3 | ht4
      · rcases List.mem_append.mp ht3 with ht5 | ht6
        · exact hst t ht5
        · rw [List.mem_singleton.mp ht6]; exact hc arr j
      · rw [List.mem_singleton.mp ht4]; exact hw arr j
    · rw [List.mem_singleton.mp ht2]; exact ha _
  | case2 j arr steps h hgt ih =>
    intro hst s hs
    rw [bubbleInner] at hs
    simp only [dif_pos h, if_neg hgt] at hs
    refine ih ?_ s hs
    intro t ht
    rcases List.mem_append.mp ht with ht1 | ht2
    · exact hst t ht1
    · rw [List.mem_singleton.mp ht2]; exact hc arr j
  | case3 j arr steps h =>
    intro hst s hs
    rw [bubbleInner] at hs
    simp only [dif_neg h] at hs
    exact hst s hs

theorem bubbleOuter_steps_pred (n : Int) (Q : SortStep → Prop)
    (hc : ∀ (a : List Int) (p : Int), Q ⟨a, some (p, p + 1), none⟩)
    (hw : ∀ (a : List Int) (p : Int), Q ⟨a, none, some (p, p + 1)⟩)
    (ha : ∀ a : List Int, Q ⟨a, none, none⟩) :
    ∀ i arr steps, (∀ s ∈ steps, Q s) → ∀ s ∈ (bubbleOuter n i arr steps).2, Q s := by
  intro i arr steps
  induction i, arr, steps using bubbleOuter.induct n with
  | case1 i arr steps h ih =>
    intro hst s hs
    rw [bubbleOuter] at hs
    simp only [dif_pos h] at hs
    exact ih (bubbleInner_steps_pred n i Q hc hw ha 0 arr steps hst) s hs
  | case2 i arr steps h =>
    intro hst s hs
    rw [bubbleOuter] at hs
    simp only [dif_neg h] at hs
    exact hst s hs

theorem bubbleSort_steps_pred (Q : SortStep → Prop)
    (hc : ∀ (a : List Int) (p : Int), Q ⟨a, some (p, p + 1), none⟩)
    (hw : ∀ (a : List Int) (p : Int), Q ⟨a, none, some (p, p + 1)⟩)
    (ha : ∀ a : List Int, Q ⟨a, none, none⟩) :
    ∀ (A : List Int), ∀ s ∈ bubbleSort A, Q s := by
  intro A s hs
  exact bubbleOuter_steps_pred (A.length : Int) Q hc hw ha 0 A [] (by simp) s hs

theorem partLoop_steps_pred (high pivot : Int) (Q : SortStep → Prop)
    (hc : ∀ (a : List Int) (p : Int), p < high → Q ⟨a, some (p, high), none⟩)
    (hw : ∀ (a : List Int) (p q : Int), Q ⟨a, none, some (p, q)⟩)
    (ha : ∀ a : List Int, Q ⟨a, none, none⟩) :
    ∀ j i arr steps, (∀ s ∈ steps, Q s) → ∀ s ∈ (partLoop high pivot j i arr steps).2.1, Q s := by
  intro j i arr steps
  induction j, i, arr, steps using partLoop.induct high pivot with
  | case1 j i arr steps h hle ih =>
    intro hst s hs
    rw [partLoop] at hs
    simp only [dif_pos h, if_pos hle] at hs
    refine ih ?_ s hs
    intro t ht
    rcases List.mem_append.mp ht with ht1 | ht2
    · rcases List.mem_append.mp ht1 with ht3 | ht4
      · rcases List.mem_append.mp ht3 with ht5 | ht6
        · exact hst t ht5
        · rw [List.mem_singleton.mp ht6]; exact hc arr j h
      · rw [List.mem_singleton.mp ht4]; exact hw arr (i + 1) j
    · rw [List.mem_singleton.mp ht2]; exact ha _
  | case2 j i arr steps h hle ih =>
    intro hst s hs
    rw [partLoop] at hs
    simp only [dif_pos h, if_neg hle] at hs
    refine ih ?_ s hs
    intro t ht
    rcases List.mem_append.mp ht with ht1 | ht2
    · exact hst t ht1
    · rw [List.mem_singleton.mp ht2]; exact hc arr j h
  | case3 j i arr steps h =>
    intro hst s hs
    rw [partLoop] at hs
    simp only [dif_neg h] at hs
    rcases List.mem_append.mp hs with ht1 | ht2
    · rcases List.mem_append.mp ht1 with ht3 | ht4
      · exact hst s ht3
      · rw [List.mem_singleton.mp ht4]; exact hw arr (i + 1) high
    · rw [List.mem_singleton.mp ht2]; exact ha _

theorem quickSortHelper_steps_pred (Q : SortStep → Prop)
    (hc : ∀ (a : List Int) (p q : Int), p < q → Q ⟨a, some (p, q), none⟩)
    (hw : ∀ (a : List Int) (p q : Int), Q ⟨a, none, some (p, q)⟩)
    (ha : ∀ a : List Int, Q ⟨a, none, none⟩) :
    ∀ arr low high steps, (∀ s ∈ steps, Q s) →
      ∀ s ∈ (quickSortHelper arr low high steps).2, Q s := by
  intro arr low high steps
  induction arr, low, high, steps using quickSortHelper.induct with
  | case1 arr low high steps hlt arr1 steps1 p hp arr2 steps2 hq ih1 ih2 =>
    intro hst s hs
    rw [quickSortHelper] at hs
    simp only [dif_pos hlt] at hs
    rw [hp] at hs
    simp only [] at hs
    rw [hq] at hs
    have hq1 : ∀ t ∈ steps1, Q t := by
      intro t ht
      have : steps1 = (partition arr low high steps).2.1 := by rw [hp]
      rw [this] at ht
      exact partLoop_steps_pred high (getI arr high) Q
        (fun a p hph => hc a p high hph) hw ha low (low - 1) arr steps hst t ht
    have hq2 : ∀ t ∈ steps2, Q t := by
      intro t ht
      have : steps2 = (quickSortHelper arr1 low (p - 1) steps1).2 := by rw [hq]
      rw [this] at ht
      exact ih1 hq1 t ht
    exact ih2 hq2 s hs
  | case2 arr low high steps hlt =>
    intro hst s hs
    rw [quickSortHelper] at hs
    simp only [dif_neg hlt] at hs
    exact hst s hs

theorem quickSort_steps_pred (Q : SortStep → Prop)
    (hc : ∀ (a : List Int) (p q : Int), p < q → Q ⟨a, some (p, q), none⟩)
    (hw : ∀ (a : List Int) (p q : Int), Q ⟨a, none, some (p, q)⟩)
    (ha : ∀ a : List Int, Q ⟨a, none, none⟩) :
    ∀ (A : List Int), ∀ s ∈ quickSort A, Q s := by
  intro A s hs
  exact quickSortHelper_steps_pred Q hc hw ha A 0 ((A.length : Int) - 1) [] (by simp) s hs

/-! ## Permutation invariants

The working array is only ever mutated by in-bounds swaps, so at every
moment it is a permutation of the input, and every snapshot pushed to the
step list is a permutation of the input. -/

theorem bubbleInner_perm (n i : Int) (hi : 0 ≤ i) :
    ∀ j arr steps, 0 ≤ j → (arr.length : Int) = n →
      (bubbleInner n i j arr steps).1 ~ arr ∧
        ∀ s ∈ (bubbleInner n i j arr steps).2, s ∈ steps ∨ s.array ~ arr := by
  intro j arr steps
  induction j, arr, steps using bubbleInner.induct n i with
  | case1 j arr steps h hgt ih =>
    intro hj hlen
    rw [bubbleInner]
    simp only [dif_pos h, if_pos hgt]
    have hsw : swapI arr j (j + 1) ~ arr :=
      swapI_perm arr j (j + 1) (by omega) (by omega) (by omega) (by omega)
    have hlen1 : ((swapI arr j (j + 1)).length : Int) = n := by
      rw [swapI_length]; exact hlen
    obtain ⟨ha, hs⟩ := ih (by omega) hlen1
    refine ⟨ha.trans hsw, ?_⟩
    intro s hs'
    rcases hs s hs' with hmem | hperm
    · rcases List.mem_append.mp hmem with ht1 | ht2
      · rcases List.mem_append.mp ht1 with ht3 | ht4
        · rcases List.mem_append.mp ht3 with ht5 | ht6
          · exact Or.inl ht5
          · right; rw [List.mem_singleton.mp ht6]
        · exact Or.inr (by rw [List.mem_singleton.mp ht4])
      · exact Or.inr (by rw [List.mem_singleton.mp ht2]; exact hsw)
    · exact Or.inr (hperm.trans hsw)
  | case2 j arr steps h hgt ih =>
    intro hj hlen
    rw [bubbleInner]
    simp only [dif_pos h, if_neg hgt]
    obtain ⟨ha, hs⟩ := ih (by omega) hlen
    refine ⟨ha, ?_⟩
    intro s hs'
    rcases hs s hs' with hmem | hperm
    · rcases List.mem_append.mp hmem with ht1 | ht2
      · exact Or.inl ht1
      · exact Or.inr (by rw [List.mem_singleton.mp ht2])
    · exact Or.inr hperm
  | case3 j arr steps h =>
    intro hj hlen
    rw [bubbleInner]
    simp only [dif_neg h]
    exact ⟨List.Perm.refl arr, fun s hs => Or.inl hs⟩

theorem bubbleOuter_perm (n : Int) :
    ∀ i arr steps, 0 ≤ i → (arr.length : Int) = n →
      (bubbleOuter n i arr steps).1 ~ arr ∧
        ∀ s ∈ (bubbleOuter n i arr steps).2, s ∈ steps ∨ s.array ~ arr := by
  intro i arr steps
  induction i, arr, steps using bubbleOuter.induct n with
  | case1 i arr steps h ih =>
    intro hi hlen
    rw [bubbleOuter]
    simp only [dif_pos h]
    obtain ⟨ha1, hs1⟩ := bubbleInner_perm n i hi 0 arr steps (by omega) hlen
    have hlen1 : (((bubbleInner n i 0 arr steps).1).length : Int) = n := by
      rw [ha1.length_eq]; exact hlen
    obtain ⟨ha2, hs2⟩ := ih (by omega) hlen1
    refine ⟨ha2.trans ha1, ?_⟩
    intro s hs'
    rcases hs2 s hs' with hmem | hperm
    · rcases hs1 s hmem with hmem1 | hperm1
      · exact Or.inl hmem1
      · exact Or.inr hperm1
    · exact Or.inr (hperm.trans ha1)
  | case2 i arr steps h =>
    intro hi hlen
    rw [bubbleOuter]
    simp only [dif_neg h]
    exact ⟨List.Perm.refl arr, fun s hs => Or.inl hs⟩

/-- Every step recorded by `bubbleSort` snapshots a permutation of the input. -/
theorem bubbleSort_perm (A : List Int) : ∀ s ∈ bubbleSort A, s.array ~ A := by
  intro s hs
  obtain ⟨_, h2⟩ := bubbleOuter_perm (A.length : Int) 0 A [] (by omega) rfl
  rcases h2 s hs with hmem | hperm
  · simp at hmem
  · exact hperm

/-- The array returned by the bubble sort loops is a permutation of the input. -/
theorem bubbleOuter_final_perm (A : List Int) :
    (bubbleOuter (A.length : Int) 0 A []).1 ~ A :=
  (bubbleOuter_perm (A.length : Int) 0 A [] (by omega) rfl).1

theorem partLoop_perm (high pivot : Int) :
    ∀ j i arr steps, -1 ≤ i → i < j → j ≤ high → high < (arr.length : Int) →
      (partLoop high pivot j i arr steps).1 ~ arr ∧
        ∀ s ∈ (partLoop high pivot j i arr steps).2.1, s ∈ steps ∨ s.array ~ arr := by
  intro j i arr steps
  induction j, i, arr, steps using partLoop.induct high pivot with
  | case1 j i arr steps h hle ih =>
    intro hi hij hjh hlen
    rw [partLoop]
    simp only [dif_pos h, if_pos hle]
    have hsw : swapI arr (i + 1) j ~ arr :=
      swapI_perm arr (i + 1) j (by omega) (by omega) (by omega) (by omega)
    have hlen1 : high < ((swapI arr (i + 1) j).length : Int) := by
      rw [swapI_length]; exact hlen
    obtain ⟨ha, hs⟩ := ih (by omega) (by omega) (by omega) hlen1
    refine ⟨ha.trans hsw, ?_⟩
    intro s hs'
    rcases hs s hs' with hmem | hperm
    · rcases List.mem_append.mp hmem with ht1 | ht2
      · rcases List.mem_append.mp ht1 with ht3 | ht4
        · rcases List.mem_append.mp ht3 with ht5 | ht6
          · exact Or.inl ht5
          · exact Or.inr (by rw [List.mem_singleton.mp ht6])
        · exact Or.inr (by rw [List.mem_singleton.mp ht4])
      · exact Or.inr (by rw [List.mem_singleton.mp ht2]; exact hsw)
    · exact Or.inr (hperm.trans hsw)
  | case2 j i arr steps h hle ih =>
    intro hi hij hjh hlen
    rw [partLoop]
    simp only [dif_pos h, if_neg hle]
    obtain ⟨ha, hs⟩ := ih (by omega) (by omega) (by omega) hlen
    refine ⟨ha, ?_⟩
    intro s hs'
    rcases hs s hs' with hmem | hperm
    · rcases List.mem_append.mp hmem with ht1 | ht2
      · exact Or.inl ht1
      · exact Or.inr (by rw [List.mem_singleton.mp ht2])
    · exact Or.inr hperm
  | case3 j i arr steps h =>
    intro hi hij hjh hlen
    rw [partLoop]
    simp only [dif_neg h]
    have hsw : swapI arr (i + 1) high ~ arr :=
      swapI_perm arr (i + 1) high (by omega) (by omega) (by omega) (by omega)
    refine ⟨hsw, ?_⟩
    intro s hs'
    rcases List.mem_append.mp hs' with ht1 | ht2
    · rcases List.mem_append.mp ht1 with ht3 | ht4
      · exact Or.inl ht3
      · exact Or.inr (by rw [List.mem_singleton.mp ht4])
    · exact Or.inr (by rw [List.mem_singleton.mp ht2]; exact hsw)

theorem quickSortHelper_perm :
    ∀ arr low high steps, 0 ≤ low → high < (arr.length : Int) →
      (quickSortHelper arr low high steps).1 ~ arr ∧
        ∀ s ∈ (quickSortHelper arr low high steps).2, s ∈ steps ∨ s.array ~ arr := by
  intro arr low high steps
  induction arr, low, high, steps using quickSortHelper.induct with
  | case1 arr low high steps hlt arr1 steps1 p hp arr2 steps2 hq ih1 ih2 =>
    intro hlow hlen
    rw [quickSortHelper]
    simp only [dif_pos hlt]
    rw [hp]
    simp only []
    rw [hq]
    have hpb := partition_res_bounds arr low high steps hlt
    rw [hp] at hpb
    simp at hpb
    obtain ⟨hA1, hS1⟩ := partLoop_perm high (getI arr high) low (low - 1) arr steps
      (by omega) (by omega) (by omega) hlen
    rw [show partLoop high (getI arr high) low (low - 1) arr steps
        = partition arr low high steps from rfl, hp] at hA1 hS1
    simp only [] at hA1 hS1
    have hlen1 : p - 1 < (arr1.length : Int) := by
      rw [hA1.length_eq]; omega
    obtain ⟨hA2, hS2⟩ := ih1 hlow hlen1
    rw [hq] at hA2 hS2
    simp only [] at hA2 hS2
    have hlen2 : high < (arr2.length : Int) := by
      rw [hA2.length_eq, hA1.length_eq]; omega
    obtain ⟨hA3, hS3⟩ := ih2 (by omega) hlen2
    refine ⟨(hA3.trans hA2).trans hA1, ?_⟩
    intro s hs
    rcases hS3 s hs with h3 | h3
    · rcases hS2 s h3 with h2 | h2
      · rcases hS1 s h2 with h1 | h1
        · exact Or.inl h1
        · exact Or.inr h1
      · exact Or.inr (h2.trans hA1)
    · exact Or.inr ((h3.trans hA2).trans hA1)
  | case2 arr low high steps hlt =>
    intro hlow hlen
    rw [quickSortHelper]
    simp only [dif_neg hlt]
    exact ⟨List.Perm.refl arr, fun s hs => Or.inl hs⟩

/-- Every step recorded by `quickSort` snapshots a permutation of the input. -/
theorem quickSort_perm (A : List Int) : ∀ s ∈ quickSort A, s.array ~ A := by
  intro s hs
  obtain ⟨_, h2⟩ := quickSortHelper_perm A 0 ((A.length : Int) - 1) [] (by omega) (by omega)
  rcases h2 s hs with hmem | hperm
  · simp at hmem
  · exact hperm

/-- The array returned by the quick sort recursion is a permutation of the input. -/
theorem quickSortHelper_final_perm (A : List Int) :
    (quickSortHelper A 0 ((A.length : Int) - 1) []).1 ~ A :=
  (quickSortHelper_perm A 0 ((A.length : Int) - 1) [] (by omega) (by omega)).1

/-! ## Swap steps are immediately resolved

Whenever a recorder pushes a step announcing `swapping = (p, q)`, the very
next push is the cleared step whose array is the announced array with the
entries at `p` and `q` exchanged.  `followOK` states this for a whole step
list; it also forces the follower to exist, so a step list satisfying it
never ends in an unresolved swap step. -/

/-- Every step announcing a swap of `(p, q)` is immediately followed by a
step with both fields `null` whose array is the announcing step's array with
positions `p` and `q` exchanged. -/
def followOK (l : List SortStep) : Prop :=
  ∀ (k : Nat) (st : SortStep) (p q : Int),
    l[k]? = some st → st.swapping = some (p, q) →
    l[k + 1]? = some ⟨swapI st.array p q, none, none⟩

theorem followOK_nil : followOK [] := by
  intro k st p q hk
  simp at hk

theorem followOK_append_cmp (l : List SortStep) (c : SortStep)
    (hl : followOK l) (hc : c.swapping = none) : followOK (l ++ [c]) := by
  intro k st p q hk hsw
  by_cases hklen : k < l.length
  · rw [List.getElem?_append, if_pos hklen] at hk
    have hf := hl k st p q hk hsw
    have hlt : k + 1 < l.length := (List.getElem?_eq_some.mp hf).1
    rw [List.getElem?_append, if_pos hlt]
    exact hf
  · rw [List.getElem?_append, if_neg hklen] at hk
    by_cases h0 : k = l.length
    · rw [h0, Nat.sub_self] at hk
      simp at hk
      rw [← hk, hc] at hsw
      exact absurd hsw (by simp)
    · rw [List.getElem?_eq_none (by simp; omega)] at hk
      exact absurd hk (by simp)

theorem followOK_append_swap (l : List SortStep) (a : List Int) (p q : Int)
    (hl : followOK l) :
    followOK (l ++ [⟨a, none, some (p, q)⟩] ++ [⟨swapI a p q, none, none⟩]) := by
  rw [List.append_assoc]
  intro k st p' q' hk hsw
  by_cases hklen : k < l.length
  · rw [List.getElem?_append, if_pos hklen] at hk
    have hf := hl k st p' q' hk hsw
    have hlt : k + 1 < l.length := (List.getElem?_eq_some.mp hf).1
    rw [List.getElem?_append, if_pos hlt]
    exact hf
  · rw [List.getElem?_append, if_neg hklen] at hk
    by_cases h0 : k = l.length
    · rw [h0, Nat.sub_self] at hk
      simp at hk
      rw [← hk] at hsw
      simp at hsw
      obtain ⟨hp', hq'⟩ := hsw
      rw [List.getElem?_append, if_neg (by omega)]
      have h1 : k + 1 - l.length = 1 := by omega
      rw [h1, ← hk, ← hp', ← hq']
      rfl
    · by_cases h1 : k = l.length + 1
      · rw [h1, show l.length + 1 - l.length = 1 from by omega] at hk
        simp at hk
        rw [← hk] at hsw
        exact absurd hsw (by simp)
      · rw [List.getElem?_eq_none (by simp; omega)] at hk
        exact absurd hk (by simp)

theorem bubbleInner_chain (n i : Int) :
    ∀ j arr steps, followOK steps → followOK (bubbleInner n i j arr steps).2 := by
  intro j arr steps
  induction j, arr, steps using bubbleInner.induct n i with
  | case1 j arr steps h hgt ih =>
    intro hst
    rw [bubbleInner]
    simp only [dif_pos h, if_pos hgt]
    exact ih (followOK_append_swap _ arr j (j + 1) (followOK_append_cmp steps _ hst rfl))
  | case2 j arr steps h hgt ih =>
    intro hst
    rw [bubbleInner]
    simp only [dif_pos h, if_neg hgt]
    exact ih (followOK_append_cmp steps _ hst rfl)
  | case3 j arr steps h =>
    intro hst
    rw [bubbleInner]
    simp only [dif_neg h]
    exact hst

theorem bubbleOuter_chain (n : Int) :
    ∀ i arr steps, followOK steps → followOK (bubbleOuter n i arr steps).2 := by
  intro i arr steps
  induction i, arr, steps using bubbleOuter.induct n with
  | case1 i arr steps h ih =>
    intro hst
    rw [bubbleOuter]
    simp only [dif_pos h]
    exact ih (bubbleInner_chain n i 0 arr steps hst)
  | case2 i arr steps h =>
    intro hst
    rw [bubbleOuter]
    simp only [dif_neg h]
    exact hst

theorem partLoop_chain (high pivot : Int) :
    ∀ j i arr steps, followOK steps → followOK (partLoop high pivot j i arr steps).2.1 := by
  intro j i arr steps
  induction j, i, arr, steps using partLoop.induct high pivot with
  | case1 j i arr steps h hle ih =>
    intro hst
    rw [partLoop]
    simp only [dif_pos h, if_pos hle]
    exact ih (followOK_append_swap _ arr (i + 1) j (followOK_append_cmp steps _ hst rfl))
  | case2 j i arr steps h hle ih =>
    intro hst
    rw [partLoop]
    simp only [dif_pos h, if_neg hle]
    exact ih (followOK_append_cmp steps _ hst rfl)
  | case3 j i arr steps h =>
    intro hst
    rw [partLoop]
    simp only [dif_neg h]
    exact followOK_append_swap steps arr (i + 1) high hst

theorem quickSortHelper_chain :
    ∀ arr low high steps, followOK steps → followOK (quickSortHelper arr low high steps).2 := by
  intro arr low high steps
  induction arr, low, high, steps using quickSortHelper.induct with
  | case1 arr low high steps hlt arr1 steps1 p hp arr2 steps2 hq ih1 ih2 =>
    intro hst
    rw [quickSortHelper]
    simp only [dif_pos hlt]
    rw [hp]
    simp only []
    rw [hq]
    have hs1 : followOK steps1 := by
      have h1 : steps1 = (partition arr low high steps).2.1 := by rw [hp]
      rw [h1]
      exact partLoop_chain high (getI arr high) low (low - 1) arr steps hst
    have hs2 : followOK steps2 := by
      have h2 : steps2 = (quickSortHelper arr1 low (p - 1) steps1).2 := by rw [hq]
      rw [h2]
      exact ih1 hs1
    exact ih2 hs2
  | case2 arr low high steps hlt =>
    intro hst
    rw [quickSortHelper]
    simp only [dif_neg hlt]
    exact hst

theorem bubbleSort_chain (A : List Int) : followOK (bubbleSort A) :=
  bubbleOuter_chain (A.length : Int) 0 A [] followOK_nil

theorem quickSort_chain (A : List Int) : followOK (quickSort A) :=
  quickSortHelper_chain A 0 ((A.length : Int) - 1) [] followOK_nil

/-! ## Lengths and last steps -/

theorem bubbleInner_length (n i : Int) :
    ∀ j arr steps, (bubbleInner n i j arr steps).1.length = arr.length := by
  intro j arr steps
  induction j, arr, steps using bubbleInner.induct n i with
  | case1 j arr steps h hgt ih =>
    rw [bubbleInner]
    simp only [dif_pos h, if_pos hgt]
    rw [ih, swapI_length]
  | case2 j arr steps h hgt ih =>
    rw [bubbleInner]
    simp only [dif_pos h, if_neg hgt]
    exact ih
  | case3 j arr steps h =>
    rw [bubbleInner]
    simp only [dif_neg h]

theorem bubbleOuter_length (n : Int) :
    ∀ i arr steps, (bubbleOuter n i arr steps).1.length = arr.length := by
  intro i arr steps
  induction i, arr, steps using bubbleOuter.induct n with
  | case1 i arr steps h ih =>
    rw [bubbleOuter]
    simp only [dif_pos h]
    rw [ih, bubbleInner_length]
  | case2 i arr steps h =>
    rw [bubbleOuter]
    simp only [dif_neg h]

theorem partLoop_length (high pivot : Int) :
    ∀ j i arr steps, (partLoop high pivot j i arr steps).1.length = arr.length := by
  intro j i arr steps
  induction j, i, arr, steps using partLoop.induct high pivot with
  | case1 j i arr steps h hle ih =>
    rw [partLoop]
    simp only [dif_pos h, if_pos hle]
    rw [ih, swapI_length]
  | case2 j i arr steps h hle ih =>
    rw [partLoop]
    simp only [dif_pos h, if_neg hle]
    exact ih
  | case3 j i arr steps h =>
    rw [partLoop]
    simp only [dif_neg h]
    exact swapI_length arr (i + 1) high

theorem quickSortHelper_length :
    ∀ arr low high steps, (quickSortHelper arr low high steps).1.length = arr.length := by
  intro arr low high steps
  induction arr, low, high, steps using quickSortHelper.induct with
  | case1 arr low high steps hlt arr1 steps1 p hp arr2 steps2 hq ih1 ih2 =>
    rw [quickSortHelper]
    simp only [dif_pos hlt]
    rw [hp]
    simp only []
    rw [hq]
    have h1 : arr1.length = arr.length := by
      have : arr1 = (partition arr low high steps).1 := by rw [hp]
      rw [this]
      exact partLoop_length high (getI arr high) low (low - 1) arr steps
    have h2 : arr2.length = arr1.length := by
      have : arr2 = (quickSortHelper arr1 low (p - 1) steps1).1 := by rw [hq]
      rw [this]
      exact ih1
    rw [ih2, h2, h1]
  | case2 arr low high steps hlt =>
    rw [quickSortHelper]
    simp only [dif_neg hlt]

/-- If the inner loop pushed anything, the last pushed step's array is the
array it returns; otherwise it returns its inputs unchanged. -/
theorem bubbleInner_last (n i : Int) :
    ∀ j arr steps,
      ((bubbleInner n i j arr steps).2 = steps ∧ (bubbleInner n i j arr steps).1 = arr) ∨
      (∃ st : SortStep, (bubbleInner n i j arr steps).2.getLast? = some st ∧
        st.array = (bubbleInner n i j arr steps).1) := by
  intro j arr steps
  induction j, arr, steps using bubbleInner.induct n i with
  | case1 j arr steps h hgt ih =>
    rw [bubbleInner]
    simp only [dif_pos h, if_pos hgt]
    rcases ih with ⟨h1, h2⟩ | ⟨st, h1, h2⟩
    · right
      refine ⟨⟨swapI arr j (j + 1), none, none⟩, ?_, by rw [h2]⟩
      rw [h1]
      simp
    · exact Or.inr ⟨st, h1, h2⟩
  | case2 j arr steps h hgt ih =>
    rw [bubbleInner]
    simp only [dif_pos h, if_neg hgt]
    rcases ih with ⟨h1, h2⟩ | ⟨st, h1, h2⟩
    · right
      refine ⟨⟨arr, some (j, j + 1), none⟩, ?_, by rw [h2]⟩
      rw [h1]
      simp
    · exact Or.inr ⟨st, h1, h2⟩
  | case3 j arr steps h =>
    rw [bubbleInner]
    simp only [dif_neg h]
    left
    simp

theorem bubbleOuter_last (n : Int) :
    ∀ i arr steps,
      ((bubbleOuter n i arr steps).2 = steps ∧ (bubbleOuter n i arr steps).1 = arr) ∨
      (∃ st : SortStep, (bubbleOuter n i arr steps).2.getLast? = some st ∧
        st.array = (bubbleOuter n i arr steps).1) := by
  intro i arr steps
  induction i, arr, steps using bubbleOuter.induct n with
  | case1 i arr steps h ih =>
    rw [bubbleOuter]
    simp only [dif_pos h]
    rcases ih with ⟨h1, h2⟩ | ⟨st, h1, h2⟩
    · rcases bubbleInner_last n i 0 arr steps with ⟨g1, g2⟩ | ⟨st, g1, g2⟩
      · exact Or.inl ⟨by rw [h1, g1], by rw [h2, g2]⟩
      · exact Or.inr ⟨st, by rw [h1]; exact g1, by rw [h2]; exact g2⟩
    · exact Or.inr ⟨st, h1, h2⟩
  | case2 i arr steps h =>
    rw [bubbleOuter]
    simp only [dif_neg h]
    left
    simp

/-- The partition code always ends by pushing the cleared post-pivot-swap
step, so its last step's array is the array it returns. -/
theorem partLoop_last (high pivot : Int) :
    ∀ j i arr steps,
      (partLoop high pivot j i arr steps).2.1.getLast? =
        some ⟨(partLoop high pivot j i arr steps).1, none, none⟩ := by
  intro j i arr steps
  induction j, i, arr, steps using partLoop.induct high pivot with
  | case1 j i arr steps h hle ih =>
    rw [partLoop]
    simp only [dif_pos h, if_pos hle]
    exact ih
  | case2 j i arr steps h hle ih =>
    rw [partLoop]
    simp only [dif_pos h, if_neg hle]
    exact ih
  | case3 j i arr steps h =>
    rw [partLoop]
    simp only [dif_neg h]
    simp

theorem quickSortHelper_last :
    ∀ arr low high steps,
      ((quickSortHelper arr low high steps).2 = steps ∧
        (quickSortHelper arr low high steps).1 = arr) ∨
      (quickSortHelper arr low high steps).2.getLast? =
        some ⟨(quickSortHelper arr low high steps).1, none, none⟩ := by
  intro arr low high steps
  induction arr, low, high, steps using quickSortHelper.induct with
  | case1 arr low high steps hlt arr1 steps1 p hp arr2 steps2 hq ih1 ih2 =>
    rw [quickSortHelper]
    simp only [dif_pos hlt]
    rw [hp]
    simp only []
    rw [hq]
    have hpl : steps1.getLast? = some ⟨arr1, none, none⟩ := by
      have e1 : steps1 = (partition arr low high steps).2.1 := by rw [hp]
      have e2 : arr1 = (partition arr low high steps).1 := by rw [hp]
      rw [e1, e2]
      exact partLoop_last high (getI arr high) low (low - 1) arr steps
    have hll : steps2.getLast? = some ⟨arr2, none, none⟩ := by
      have e1 : steps2 = (quickSortHelper arr1 low (p - 1) steps1).2 := by rw [hq]
      have e2 : arr2 = (quickSortHelper arr1 low (p - 1) steps1).1 := by rw [hq]
      rcases ih1 with ⟨g1, g2⟩ | g
      · rw [e1, g1, hpl, e2, g2]
      · rw [e1, e2]; exact g
    rcases ih2 with ⟨g1, g2⟩ | g
    · right; rw [g1, hll, g2]
    · exact Or.inr g
  | case2 arr low high steps hlt =>
    rw [quickSortHelper]
    simp only [dif_neg hlt]
    left
    simp

/-- When `bubbleSort` produced any steps at all, the last one's array is the
final state of the working array. -/
theorem bubbleSort_last (A : List Int) (s : SortStep) (h : (bubbleSort A).getLast? = some s) :
    s.array = (bubbleOuter (A.length : Int) 0 A []).1 := by
  rcases bubbleOuter_last (A.length : Int) 0 A [] with ⟨h1, _⟩ | ⟨st, h1, h2⟩
  · rw [bubbleSort, h1] at h
    simp at h
  · rw [bubbleSort] at h
    rw [h1] at h
    obtain rfl := Option.some.inj h
    exact h2

/-- When `quickSort` produced any steps at all, the last one's array is the
final state of the working array. -/
theorem quickSort_last (A : List Int) (s : SortStep) (h : (quickSort A).getLast? = some s) :
    s.array = (quickSortHelper A 0 ((A.length : Int) - 1) []).1 := by
  rcases quickSortHelper_last A 0 ((A.length : Int) - 1) [] with ⟨h1, _⟩ | h1
  · rw [quickSort, h1] at h
    simp at h
  · rw [quickSort] at h
    rw [h1] at h
    obtain rfl := Option.some.inj h
    rfl

/-! ## Step counts of `bubbleSort`

Each inner iteration pushes exactly one step for a non-inverted comparison
and exactly three for an inverted one, so the total lies between the number
of comparisons `n(n-1)/2` and three times it. -/

/-- The number of comparisons the passes `i, i+1, ...` of bubble sort still
perform: `(n-i)*(n-i-1)/2`. -/
def tri (n i : Int) : Nat := ((n - i) * (n - i - 1) / 2).toNat

theorem tri_rec (n i : Int) (h : i < n - 1) :
    tri n i = (n - i - 1).toNat + tri n (i + 1) := by
  unfold tri
  have e1 : (n - i) * (n - i - 1) = (n - i - 1) * (n - i - 2) + 2 * (n - i - 1) := by ring
  have e2 : (n - (i + 1)) * (n - (i + 1) - 1) = (n - i - 1) * (n - i - 2) := by ring
  have e3 : (n - i - 1) * (n - i - 2) % 2 = 0 := by
    have := Int.even_mul_succ_self (n - i - 2)
    have e : (n - i - 2) * (n - i - 2 + 1) = (n - i - 1) * (n - i - 2) := by ring
    rw [e] at this
    exact Int.even_iff.mp this
  have e4 : 0 ≤ (n - i - 1) * (n - i - 2) := mul_nonneg (by omega) (by omega)
  rw [e1, e2]
  omega

theorem tri_eq_zero (n i : Int) (h1 : n - 1 ≤ i) (h2 : i ≤ n) : tri n i = 0 := by
  unfold tri
  have : (n - i) * (n - i - 1) = 0 := by
    rcases (by omega : n - i = 0 ∨ n - i = 1) with h | h
    · rw [h, zero_mul]
    · rw [h]; norm_num
  rw [this]
  rfl

theorem bubbleInner_count (n i : Int) :
    ∀ j arr steps,
      steps.length + (n - i - 1 - j).toNat ≤ (bubbleInner n i j arr steps).2.length ∧
        (bubbleInner n i j arr steps).2.length ≤ steps.length + 3 * (n - i - 1 - j).toNat := by
  intro j arr steps
  induction j, arr, steps using bubbleInner.induct n i with
  | case1 j arr steps h hgt ih =>
    rw [bubbleInner]
    simp only [dif_pos h, if_pos hgt]
    obtain ⟨l1, l2⟩ := ih
    simp only [List.length_append, List.length_singleton] at l1 l2 ⊢
    omega
  | case2 j arr steps h hgt ih =>
    rw [bubbleInner]
    simp only [dif_pos h, if_neg hgt]
    obtain ⟨l1, l2⟩ := ih
    simp only [List.length_append, List.length_singleton] at l1 l2 ⊢
    omega
  | case3 j arr steps h =>
    rw [bubbleInner]
    simp only [dif_neg h]
    omega

theorem bubbleOuter_count (n : Int) (hn : 0 ≤ n) :
    ∀ i arr steps, 0 ≤ i → (i ≤ n - 1 ∨ (n - 1 ≤ 0 ∧ i = 0)) →
      steps.length + tri n i ≤ (bubbleOuter n i arr steps).2.length ∧
        (bubbleOuter n i arr steps).2.length ≤ steps.length + 3 * tri n i := by
  intro i arr steps
  induction i, arr, steps using bubbleOuter.induct n with
  | case1 i arr steps h ih =>
    intro hi _hin
    rw [bubbleOuter]
    simp only [dif_pos h]
    obtain ⟨k1, k2⟩ := bubbleInner_count n i 0 arr steps
    obtain ⟨l1, l2⟩ := ih (by omega) (by omega)
    rw [tri_rec n i h]
    have e : (n - i - 1 - 0).toNat = (n - i - 1).toNat := by omega
    rw [e] at k1 k2
    omega
  | case2 i arr steps h =>
    intro hi hin
    rw [bubbleOuter]
    simp only [dif_neg h]
    rw [tri_eq_zero n i (by omega) (by omega)]
    omega

/-- The step count of `bubbleSort A` lies between `n(n-1)/2` and `3·n(n-1)/2`
where `n = |A|`. -/
theorem bubbleSort_count (A : List Int) :
    A.length * (A.length - 1) / 2 ≤ (bubbleSort A).length ∧
      (bubbleSort A).length ≤ 3 * (A.length * (A.length - 1) / 2) := by
  have h := bubbleOuter_count (A.length : Int) (by omega) 0 A [] (by omega) (by omega)
  have e : tri (A.length : Int) 0 = A.length * (A.length - 1) / 2 := by
    unfold tri
    cases hA : A.length with
    | zero => norm_num
    | succ m =>
      have e1 : ((m + 1 : Nat) : Int) - 0 = ((m + 1 : Nat) : Int) := by ring
      have e2 : ((m + 1 : Nat) : Int) - 1 = ((m : Nat) : Int) := by push_cast; ring
      rw [e1, e2]
      have e3 : ((m + 1 : Nat) : Int) * ((m : Nat) : Int) = (((m + 1) * m : Nat) : Int) := by
        push_cast; ring
      rw [e3]
      have e4 : m + 1 - 1 = m := rfl
      rw [e4]
      generalize (m + 1) * m = k
      omega
  rw [bubbleSort]
  rw [e] at h
  simpa using h

/-! ## Bubble sort sorts

Classic invariant: after pass `i`, every position in the suffix starting at
`n - i - 1` dominates all positions before it. -/

/-- Every position `q` with `m ≤ q < n` dominates all positions `p ≤ q`. -/
def DomSuffix (n m : Int) (a : List Int) : Prop :=
  ∀ p q : Int, 0 ≤ p → p ≤ q → q < n → m ≤ q → getI a p ≤ getI a q

theorem bubbleInner_dom (n i : Int) (hi : 0 ≤ i) :
    ∀ j arr steps, 0 ≤ j → j ≤ n - i - 1 → (arr.length : Int) = n →
      (∀ k : Int, 0 ≤ k → k ≤ j → getI arr k ≤ getI arr j) →
      DomSuffix n (n - i) arr →
      DomSuffix n (n - i - 1) (bubbleInner n i j arr steps).1 := by
  intro j arr steps
  induction j, arr, steps using bubbleInner.induct n i with
  | case1 j arr steps h hgt ih =>
    intro hj0 hjn hlen hM hD
    rw [bubbleInner]
    simp only [dif_pos h, if_pos hgt]
    have hfst : getI (swapI arr j (j + 1)) j = getI arr (j + 1) :=
      getI_swapI_fst arr j (j + 1) (by omega) (by omega) (by omega) (by omega)
    have hsnd : getI (swapI arr j (j + 1)) (j + 1) = getI arr j :=
      getI_swapI_snd arr j (j + 1) (by omega) (by omega)
    have hoth : ∀ k : Int, 0 ≤ k → k ≠ j → k ≠ j + 1 →
        getI (swapI arr j (j + 1)) k = getI arr k :=
      fun k hk h1 h2 => getI_swapI_other arr j (j + 1) k hk (by omega) (by omega) h1 h2
    apply ih (by omega) (by omega) (by rw [swapI_length]; exact hlen)
    · intro k hk0 hk
      rw [hsnd]
      by_cases hk1 : k = j + 1
      · rw [hk1, hsnd]
      · by_cases hk2 : k = j
        · rw [hk2, hfst]
          exact le_of_lt hgt
        · rw [hoth k hk0 hk2 hk1]
          exact hM k hk0 (by omega)
    · intro p q hp0 hpq hqn hq
      rw [hoth q (by omega) (by omega) (by omega)]
      by_cases hp1 : p = j
      · rw [hp1, hfst]
        exact hD (j + 1) q (by omega) (by omega) hqn (by omega)
      · by_cases hp2 : p = j + 1
        · rw [hp2, hsnd]
          exact hD j q (by omega) (by omega) hqn (by omega)
        · rw [hoth p hp0 hp1 hp2]
          exact hD p q hp0 hpq hqn (by omega)
  | case2 j arr steps h hgt ih =>
    intro hj0 hjn hlen hM hD
    rw [bubbleInner]
    simp only [dif_pos h, if_neg hgt]
    apply ih (by omega) (by omega) hlen ?_ hD
    intro k hk0 hk
    have hle : getI arr j ≤ getI arr (j + 1) := not_lt.mp hgt
    by_cases hk1 : k = j + 1
    · rw [hk1]
    · exact le_trans (hM k hk0 (by omega)) hle
  | case3 j arr steps h =>
    intro hj0 hjn hlen hM hD
    rw [bubbleInner]
    simp only [dif_neg h]
    intro p q hp0 hpq hqn hq
    by_cases hq1 : n - i ≤ q
    · exact hD p q hp0 hpq hqn hq1
    · have hqj : q = j := by omega
      rw [hqj]
      exact hM p hp0 (by omega)

theorem bubbleOuter_dom (n : Int) :
    ∀ i arr steps, 0 ≤ i → (arr.length : Int) = n → DomSuffix n (n - i) arr →
      DomSuffix n 1 (bubbleOuter n i arr steps).1 := by
  intro i arr steps
  induction i, arr, steps using bubbleOuter.induct n with
  | case1 i arr steps h ih =>
    intro hi hlen hD
    rw [bubbleOuter]
    simp only [dif_pos h]
    have hM0 : ∀ k : Int, 0 ≤ k → k ≤ 0 → getI arr k ≤ getI arr 0 := by
      intro k hk0 hk
      have hk' : k = 0 := by omega
      rw [hk']
    have hinner : DomSuffix n (n - i - 1) (bubbleInner n i 0 arr steps).1 :=
      bubbleInner_dom n i hi 0 arr steps (le_refl 0) (by omega) hlen hM0 hD
    have hlen1 : ((bubbleInner n i 0 arr steps).1.length : Int) = n := by
      rw [bubbleInner_length]; exact hlen
    have he : n - (i + 1) = n - i - 1 := by ring
    exact ih (by omega) hlen1 (by rw [he]; exact hinner)
  | case2 i arr steps h =>
    intro hi hlen hD
    rw [bubbleOuter]
    simp only [dif_neg h]
    intro p q hp0 hpq hqn hq
    exact hD p q hp0 hpq hqn (by omega)

/-- A list whose `getI` values are pairwise ordered is `Sorted (· ≤ ·)`. -/
theorem sorted_of_pairwise_getI (l : List Int)
    (h : ∀ p q : Int, 0 ≤ p → p ≤ q → q < (l.length : Int) → 1 ≤ q → getI l p ≤ getI l q) :
    l.Sorted (· ≤ ·) := by
  rw [List.Sorted, List.pairwise_iff_getElem]
  intro a b ha hb hab
  have hg := h (a : Int) (b : Int) (by omega) (by omega) (by omega) (by omega)
  simp only [getI, Int.toNat_natCast] at hg
  rwa [List.getD_eq_getElem l 0 ha, List.getD_eq_getElem l 0 hb] at hg

/-- The array state after all bubble sort passes is sorted ascending. -/
theorem bubbleSort_final_sorted (A : List Int) :
    ((bubbleOuter (A.length : Int) 0 A []).1).Sorted (· ≤ ·) := by
  have hD0 : DomSuffix (A.length : Int) ((A.length : Int) - 0) A := by
    intro p q hp0 hpq hqn hq
    exact absurd hqn (by omega)
  have hfin := bubbleOuter_dom (A.length : Int) 0 A [] (le_refl 0) rfl hD0
  apply sorted_of_pairwise_getI
  intro p q hp0 hpq hql hq1
  have hlen : ((bubbleOuter (A.length : Int) 0 A []).1.length : Int) = (A.length : Int) := by
    rw [bubbleOuter_length]
  exact hfin p q hp0 hpq (by omega) hq1

/-! ## Quick sort sorts

The proof follows the structure of the Lomuto partition argument: the
partition only touches positions in `[low, high]`, puts the pivot at the
returned position `p` with everything left of `p` at most the pivot and
everything right of it above the pivot, and the recursion sorts both sides
without touching the other side or the pivot. -/

theorem partLoop_untouched (high pivot : Int) :
    ∀ j i arr steps, -1 ≤ i → i < j → j ≤ high →
      ∀ k : Int, 0 ≤ k → (k ≤ i ∨ high < k) →
        getI (partLoop high pivot j i arr steps).1 k = getI arr k := by
  intro j i arr steps
  induction j, i, arr, steps using partLoop.induct high pivot with
  | case1 j i arr steps h hle ih =>
    intro hi hij hjh k hk0 hcond
    rw [partLoop]
    simp only [dif_pos h, if_pos hle]
    have e : getI (swapI arr (i + 1) j) k = getI arr k :=
      getI_swapI_other arr (i + 1) j k hk0 (by omega) (by omega) (by omega) (by omega)
    exact (ih (by omega) (by omega) (by omega) k hk0 (by omega)).trans e
  | case2 j i arr steps h hle ih =>
    intro hi hij hjh k hk0 hcond
    rw [partLoop]
    simp only [dif_pos h, if_neg hle]
    exact ih (by omega) (by omega) (by omega) k hk0 hcond
  | case3 j i arr steps h =>
    intro hi hij hjh k hk0 hcond
    rw [partLoop]
    simp only [dif_neg h]
    exact getI_swapI_other arr (i + 1) high k hk0 (by omega) (by omega) (by omega) (by omega)

theorem quickSortHelper_untouched :
    ∀ arr low high steps, 0 ≤ low → ∀ k : Int, 0 ≤ k → (k < low ∨ high < k) →
      getI (quickSortHelper arr low high steps).1 k = getI arr k := by
  intro arr low high steps
  induction arr, low, high, steps using quickSortHelper.induct with
  | case1 arr low high steps hlt arr1 steps1 p hp arr2 steps2 hq ih1 ih2 =>
    intro hlow k hk0 hcond
    rw [quickSortHelper]
    simp only [dif_pos hlt]
    rw [hp]
    simp only []
    rw [hq]
    have hpb := partition_res_bounds arr low high steps hlt
    rw [hp] at hpb
    simp at hpb
    have e1 : getI arr1 k = getI arr k := by
      have harr1 : arr1 = (partition arr low high steps).1 := by rw [hp]
      rw [harr1]
      exact partLoop_untouched high (getI arr high) low (low - 1) arr steps
        (by omega) (by omega) (by omega) k hk0 (by omega)
    have e2 : getI arr2 k = getI arr1 k := by
      have harr2 : arr2 = (quickSortHelper arr1 low (p - 1) steps1).1 := by rw [hq]
      rw [harr2]
      exact ih1 hlow k hk0 (by omega)
    have e3 : getI (quickSortHelper arr2 (p + 1) high steps2).1 k = getI arr2 k :=
      ih2 (by omega) k hk0 (by omega)
    exact (e3.trans e2).trans e1
  | case2 arr low high steps hlt =>
    intro hlow k hk0 hcond
    rw [quickSortHelper]
    simp only [dif_neg hlt]

theorem partLoop_rvs (high pivot lo : Int) (hlo : 0 ≤ lo) :
    ∀ j i arr steps, lo ≤ i + 1 → i < j → j ≤ high → high < (arr.length : Int) →
      ∀ k : Int, lo ≤ k → k ≤ high →
        ∃ k', lo ≤ k' ∧ k' ≤ high ∧
          getI (partLoop high pivot j i arr steps).1 k = getI arr k' := by
  intro j i arr steps
  induction j, i, arr, steps using partLoop.induct high pivot with
  | case1 j i arr steps h hle ih =>
    intro hli hij hjh hlen k hk1 hk2
    rw [partLoop]
    simp only [dif_pos h, if_pos hle]
    obtain ⟨k', h1, h2, h3⟩ := ih (by omega) (by omega) (by omega)
      (by rw [swapI_length]; exact hlen) k hk1 hk2
    by_cases hc1 : k' = i + 1
    · refine ⟨j, by omega, by omega, ?_⟩
      rw [h3, hc1]
      exact getI_swapI_fst arr (i + 1) j (by omega) (by omega) (by omega) (by omega)
    · by_cases hc2 : k' = j
      · refine ⟨i + 1, by omega, by omega, ?_⟩
        rw [h3, hc2]
        exact getI_swapI_snd arr (i + 1) j (by omega) (by omega)
      · refine ⟨k', h1, h2, ?_⟩
        rw [h3]
        exact getI_swapI_other arr (i + 1) j k' (by omega) (by omega) (by omega) hc1 hc2
  | case2 j i arr steps h hle ih =>
    intro hli hij hjh hlen k hk1 hk2
    rw [partLoop]
    simp only [dif_pos h, if_neg hle]
    exact ih hli (by omega) (by omega) hlen k hk1 hk2
  | case3 j i arr steps h =>
    intro hli hij hjh hlen k hk1 hk2
    rw [partLoop]
    simp only [dif_neg h]
    by_cases hc1 : k = i + 1
    · refine ⟨high, by omega, le_refl high, ?_⟩
      rw [hc1]
      exact getI_swapI_fst arr (i + 1) high (by omega) (by omega) (by omega) (by omega)
    · by_cases hc2 : k = high
      · refine ⟨i + 1, by omega, by omega, ?_⟩
        rw [hc2]
        exact getI_swapI_snd arr (i + 1) high (by omega) (by omega)
      · refine ⟨k, hk1, hk2, ?_⟩
        exact getI_swapI_other arr (i + 1) high k (by omega) (by omega) (by omega) hc1 hc2

theorem quickSortHelper_rvs :
    ∀ arr low high steps, 0 ≤ low → high < (arr.length : Int) →
      ∀ k : Int, low ≤ k → k ≤ high →
        ∃ k', low ≤ k' ∧ k' ≤ high ∧
          getI (quickSortHelper arr low high steps).1 k = getI arr k' := by
  intro arr low high steps
  induction arr, low, high, steps using quickSortHelper.induct with
  | case1 arr low high steps hlt arr1 steps1 p hp arr2 steps2 hq ih1 ih2 =>
    intro hlow hlen k hk1 hk2
    rw [quickSortHelper]
    simp only [dif_pos hlt]
    rw [hp]
    simp only []
    rw [hq]
    have hpb := partition_res_bounds arr low high steps hlt
    rw [hp] at hpb
    simp at hpb
    have hlen1 : arr1.length = arr.length := by
      have harr1 : arr1 = (partition arr low high steps).1 := by rw [hp]
      rw [harr1]
      exact partLoop_length high (getI arr high) low (low - 1) arr steps
    have hlen2 : arr2.length = arr1.length := by
      have harr2 : arr2 = (quickSortHelper arr1 low (p - 1) steps1).1 := by rw [hq]
      rw [harr2]
      exact quickSortHelper_length arr1 low (p - 1) steps1
    -- stage 1: pull `k` through the right-hand recursive call
    have stage1 : ∃ k2, low ≤ k2 ∧ k2 ≤ high ∧
        getI (quickSortHelper arr2 (p + 1) high steps2).1 k = getI arr2 k2 := by
      by_cases hk : p + 1 ≤ k
      · obtain ⟨k2, g1, g2, g3⟩ := ih2 (by omega) (by omega) k hk hk2
        exact ⟨k2, by omega, g2, g3⟩
      · exact ⟨k, hk1, hk2,
          quickSortHelper_untouched arr2 (p + 1) high steps2 (by omega) k (by omega) (by omega)⟩
    obtain ⟨k2, g1, g2, g3⟩ := stage1
    -- stage 2: pull `k2` through the left-hand recursive call
    have stage2 : ∃ k1, low ≤ k1 ∧ k1 ≤ high ∧ getI arr2 k2 = getI arr1 k1 := by
      by_cases hk : k2 ≤ p - 1
      · have harr2 : arr2 = (quickSortHelper arr1 low (p - 1) steps1).1 := by rw [hq]
        rw [harr2]
        obtain ⟨k1, f1, f2, f3⟩ := ih1 hlow (by omega) k2 g1 hk
        exact ⟨k1, f1, by omega, f3⟩
      · have harr2 : arr2 = (quickSortHelper arr1 low (p - 1) steps1).1 := by rw [hq]
        rw [harr2]
        exact ⟨k2, g1, g2,
          quickSortHelper_untouched arr1 low (p - 1) steps1 hlow k2 (by omega) (by omega)⟩
    obtain ⟨k1, f1, f2, f3⟩ := stage2
    -- stage 3: pull `k1` through the partition
    have stage3 : ∃ k0, low ≤ k0 ∧ k0 ≤ high ∧ getI arr1 k1 = getI arr k0 := by
      have harr1 : arr1 = (partition arr low high steps).1 := by rw [hp]
      rw [harr1]
      exact partLoop_rvs high (getI arr high) low hlow low (low - 1) arr steps
        (by omega) (by omega) (by omega) hlen k1 f1 f2
    obtain ⟨k0, e1, e2, e3⟩ := stage3
    exact ⟨k0, e1, e2, (g3.trans f3).trans e3⟩
  | case2 arr low high steps hlt =>
    intro hlow hlen k hk1 hk2
    rw [quickSortHelper]
    simp only [dif_neg hlt]
    exact ⟨k, hk1, hk2, rfl⟩

/-- The Lomuto loop invariant and the resulting partition property: the
returned position holds the pivot value, everything in `[low, p)` is at most
the pivot, and everything in `(p, high]` is above it. -/
theorem partLoop_spec (high pivot low : Int) :
    ∀ j i arr steps,
      low - 1 ≤ i → i < j → j ≤ high → high < (arr.length : Int) → 0 ≤ low →
      (∀ k : Int, low ≤ k → k ≤ i → getI arr k ≤ pivot) →
      (∀ k : Int, i < k → k < j → pivot < getI arr k) →
      getI arr high = pivot →
      getI (partLoop high pivot j i arr steps).1 (partLoop high pivot j i arr steps).2.2 = pivot ∧
        (∀ k : Int, low ≤ k → k < (partLoop high pivot j i arr steps).2.2 →
          getI (partLoop high pivot j i arr steps).1 k ≤ pivot) ∧
        (∀ k : Int, (partLoop high pivot j i arr steps).2.2 < k → k ≤ high →
          pivot < getI (partLoop high pivot j i arr steps).1 k) := by
  intro j i arr steps
  induction j, i, arr, steps using partLoop.induct high pivot with
  | case1 j i arr steps h hle ih =>
    intro hli hij hjh hlen hlow h6 h7 h8
    rw [partLoop]
    simp only [dif_pos h, if_pos hle]
    have hfst : getI (swapI arr (i + 1) j) (i + 1) = getI arr j :=
      getI_swapI_fst arr (i + 1) j (by omega) (by omega) (by omega) (by omega)
    have hsnd : getI (swapI arr (i + 1) j) j = getI arr (i + 1) :=
      getI_swapI_snd arr (i + 1) j (by omega) (by omega)
    have hoth : ∀ k : Int, 0 ≤ k → k ≠ i + 1 → k ≠ j →
        getI (swapI arr (i + 1) j) k = getI arr k :=
      fun k hk0 h1 h2 => getI_swapI_other arr (i + 1) j k hk0 (by omega) (by omega) h1 h2
    apply ih (by omega) (by omega) (by omega) (by rw [swapI_length]; exact hlen) hlow
    · intro k hk1 hk2
      by_cases hc1 : k = i + 1
      · rw [hc1, hfst]
        exact hle
      · rw [hoth k (by omega) hc1 (by omega)]
        exact h6 k hk1 (by omega)
    · intro k hk1 hk2
      by_cases hcj : k = j
      · rw [hcj, hsnd]
        exact h7 (i + 1) (by omega) (by omega)
      · rw [hoth k (by omega) (by omega) hcj]
        exact h7 k (by omega) (by omega)
    · rw [hoth high (by omega) (by omega) (by omega)]
      exact h8
  | case2 j i arr steps h hle ih =>
    intro hli hij hjh hlen hlow h6 h7 h8
    rw [partLoop]
    simp only [dif_pos h, if_neg hle]
    apply ih (by omega) (by omega) (by omega) hlen hlow h6 ?_ h8
    intro k hk1 hk2
    by_cases hcj : k = j
    · rw [hcj]
      exact lt_of_not_le hle
    · exact h7 k hk1 (by omega)
  | case3 j i arr steps h =>
    intro hli hij hjh hlen hlow h6 h7 h8
    rw [partLoop]
    simp only [dif_neg h]
    have hjhigh : j = high := by omega
    have hfst : getI (swapI arr (i + 1) high) (i + 1) = getI arr high :=
      getI_swapI_fst arr (i + 1) high (by omega) (by omega) (by omega) hlen
    have hsnd : getI (swapI arr (i + 1) high) high = getI arr (i + 1) :=
      getI_swapI_snd arr (i + 1) high (by omega) hlen
    have hoth : ∀ k : Int, 0 ≤ k → k ≠ i + 1 → k ≠ high →
        getI (swapI arr (i + 1) high) k = getI arr k :=
      fun k hk0 h1 h2 => getI_swapI_other arr (i + 1) high k hk0 (by omega) (by omega) h1 h2
    refine ⟨?_, ?_, ?_⟩
    · rw [hfst]
      exact h8
    · intro k hk1 hk2
      rw [hoth k (by omega) (by omega) (by omega)]
      exact h6 k hk1 (by omega)
    · intro k hk1 hk2
      by_cases hck : k = high
      · rw [hck, hsnd]
        exact h7 (i + 1) (by omega) (by omega)
      · rw [hoth k (by omega) (by omega) hck]
        exact h7 k (by omega) (by omega)

/-- After `quickSortHelper`, the values in the range `[low, high]` are in
ascending order. -/
theorem quickSortHelper_sorted :
    ∀ arr low high steps, 0 ≤ low → high < (arr.length : Int) →
      ∀ x y : Int, low ≤ x → x ≤ y → y ≤ high →
        getI (quickSortHelper arr low high steps).1 x ≤
          getI (quickSortHelper arr low high steps).1 y := by
  intro arr low high steps
  induction arr, low, high, steps using quickSortHelper.induct with
  | case1 arr low high steps hlt arr1 steps1 p hp arr2 steps2 hq ih1 ih2 =>
    intro hlow hlen x y hx hxy hy
    rw [quickSortHelper]
    simp only [dif_pos hlt]
    rw [hp]
    simp only []
    rw [hq]
    have hpb := partition_res_bounds arr low high steps hlt
    rw [hp] at hpb
    simp at hpb
    have hlen1 : arr1.length = arr.length := by
      have harr1 : arr1 = (partition arr low high steps).1 := by rw [hp]
      rw [harr1]
      exact partLoop_length high (getI arr high) low (low - 1) arr steps
    have hlen2 : arr2.length = arr1.length := by
      have harr2 : arr2 = (quickSortHelper arr1 low (p - 1) steps1).1 := by rw [hq]
      rw [harr2]
      exact quickSortHelper_length arr1 low (p - 1) steps1
    -- the partition property, transported to `arr1` and `p`
    have hspec := partLoop_spec high (getI arr high) low low (low - 1) arr steps
      (by omega) (by omega) (by omega) hlen hlow
      (fun k hk1 hk2 => absurd (le_trans hk1 hk2) (by omega))
      (fun k hk1 hk2 => absurd (lt_of_le_of_lt (by omega : low - 1 ≤ k) hk2) (by omega))
      rfl
    rw [show partLoop high (getI arr high) low (low - 1) arr steps
        = partition arr low high steps from rfl, hp] at hspec
    simp only [] at hspec
    obtain ⟨c1, c2, c3⟩ := hspec
    rw [← c1] at c2 c3
    -- facts about `arr2`
    have harr2 : arr2 = (quickSortHelper arr1 low (p - 1) steps1).1 := by rw [hq]
    have hUL : ∀ k : Int, 0 ≤ k → p - 1 < k → getI arr2 k = getI arr1 k := by
      intro k hk0 hk
      rw [harr2]
      exact quickSortHelper_untouched arr1 low (p - 1) steps1 hlow k hk0 (by omega)
    have hUR : ∀ k : Int, 0 ≤ k → k < p + 1 →
        getI (quickSortHelper arr2 (p + 1) high steps2).1 k = getI arr2 k :=
      fun k hk0 hk =>
        quickSortHelper_untouched arr2 (p + 1) high steps2 (by omega) k hk0 (by omega)
    -- F1: positions in `[low, p)` stay at most the pivot value
    have hF1 : ∀ k : Int, low ≤ k → k < p →
        getI (quickSortHelper arr2 (p + 1) high steps2).1 k ≤ getI arr1 p := by
      intro k hk1 hk2
      rw [hUR k (by omega) (by omega), harr2]
      obtain ⟨k1, f1, f2, f3⟩ := quickSortHelper_rvs arr1 low (p - 1) steps1 hlow
        (by omega) k hk1 (by omega)
      rw [f3]
      exact c2 k1 f1 (by omega)
    -- F2: position `p` still holds the pivot value
    have hF2 : getI (quickSortHelper arr2 (p + 1) high steps2).1 p = getI arr1 p := by
      rw [hUR p (by omega) (by omega)]
      exact hUL p (by omega) (by omega)
    -- F3: positions in `(p, high]` stay above the pivot value
    have hF3 : ∀ k : Int, p < k → k ≤ high →
        getI arr1 p < getI (quickSortHelper arr2 (p + 1) high steps2).1 k := by
      intro k hk1 hk2
      obtain ⟨k2, f1, f2, f3⟩ := quickSortHelper_rvs arr2 (p + 1) high steps2
        (by omega) (by omega) k (by omega) hk2
      rw [f3, hUL k2 (by omega) (by omega)]
      exact c3 k2 (by omega) f2
    by_cases hxp : x < p
    · by_cases hyp : y < p
      · -- both on the left: use the left recursion's ordering
        rw [hUR x (by omega) (by omega), hUR y (by omega) (by omega), harr2]
        exact ih1 hlow (by omega) x y hx hxy (by omega)
      · by_cases hyp2 : y = p
        · rw [hyp2, hF2]
          exact hF1 x hx hxp
        · exact le_of_lt (lt_of_le_of_lt (hF1 x hx hxp) (hF3 y (by omega) hy))
    · by_cases hxp2 : x = p
      · by_cases hyp2 : y = p
        · rw [hxp2, hyp2]
        · rw [hxp2, hF2]
          exact le_of_lt (hF3 y (by omega) hy)
      · -- both on the right: use the right recursion's ordering
        exact ih2 (by omega) (by omega) x y (by omega) hxy hy
  | case2 arr low high steps hlt =>
    intro hlow hlen x y hx hxy hy
    have hxy' : x = y := by omega
    rw [hxy']

/-- The array state after the whole quick sort recursion is sorted ascending. -/
theorem quickSort_final_sorted (A : List Int) :
    ((quickSortHelper A 0 ((A.length : Int) - 1) []).1).Sorted (· ≤ ·) := by
  apply sorted_of_pairwise_getI
  intro p q hp0 hpq hql hq1
  have hlen : (quickSortHelper A 0 ((A.length : Int) - 1) []).1.length = A.length :=
    quickSortHelper_length A 0 ((A.length : Int) - 1) []
  rw [hlen] at hql
  exact quickSortHelper_sorted A 0 ((A.length : Int) - 1) [] (le_refl 0) (by omega)
    p q hp0 hpq (by omega)

/-! ## The claims -/

/-- C1: For every input array `A`, the array field of the last step of the
sequence returned by `bubbleSort A`, and likewise of `quickSort A`, is the
ascending sort of `A` (it is sorted ascending and is a permutation of `A`,
i.e. the same multiset of values). -/
theorem C1_last_step_sorted (A : List Int) :
    (∀ s : SortStep, (bubbleSort A).getLast? = some s →
      s.array.Sorted (· ≤ ·) ∧ s.array ~ A) ∧
    (∀ s : SortStep, (quickSort A).getLast? = some s →
      s.array.Sorted (· ≤ ·) ∧ s.array ~ A) := by
  constructor
  · intro s hs
    rw [bubbleSort_last A s hs]
    exact ⟨bubbleSort_final_sorted A, bubbleOuter_final_perm A⟩
  · intro s hs
    rw [quickSort_last A s hs]
    exact ⟨quickSort_final_sorted A, quickSortHelper_final_perm A⟩

theorem C1_last_step_sorted_witness :
    (([1, 2] : List Int).Sorted (· ≤ ·) ∧ ([1, 2] : List Int) ~ [2, 1]) ∧
    (([1, 2] : List Int).Sorted (· ≤ ·) ∧ ([1, 2] : List Int) ~ [2, 1]) :=
  ⟨(C1_last_step_sorted [2, 1]).1 ⟨[1, 2], none, none⟩
      (by simp [bubbleSort, bubbleOuter, bubbleInner, getI, swapI]),
    (C1_last_step_sorted [2, 1]).2 ⟨[1, 2], none, none⟩
      (by simp [quickSort, quickSortHelper, partition, partLoop, getI, swapI])⟩

/-- C2: For every input array `A` with `n = |A|`, the number of steps
returned by `bubbleSort A` lies between `n(n-1)/2` and `3·n(n-1)/2`
inclusive (1 step per non-inverted comparison, 3 per inverted one), and for
`n ≤ 1` the step count is `0`. -/
theorem C2_bubble_step_count (A : List Int) :
    A.length * (A.length - 1) / 2 ≤ (bubbleSort A).length ∧
      (bubbleSort A).length ≤ 3 * (A.length * (A.length - 1) / 2) ∧
      (A.length ≤ 1 → (bubbleSort A).length = 0) := by
  obtain ⟨h1, h2⟩ := bubbleSort_count A
  refine ⟨h1, h2, fun hle => ?_⟩
  rcases (by omega : A.length = 0 ∨ A.length = 1) with h | h <;> (rw [h] at h2; omega)

theorem C2_bubble_step_count_witness : (bubbleSort [5]).length = 0 :=
  (C2_bubble_step_count [5]).2.2 (by simp)

/-- C3 counterexample: on input `[1, 2]`, `quickSort` emits the step
`{array: [1,2], comparing: null, swapping: [0,0]}` (the Lomuto partition
swaps an element with itself when it is already in place), so it is false
that every non-null `swapping` field is a pair of two distinct indices. -/
theorem C3_distinct_pairs_counterexample :
    ¬ (∀ s ∈ quickSort [1, 2], ∀ p q : Int, s.swapping = some (p, q) → p ≠ q) := by
  intro hall
  have heval : quickSort [1, 2] =
      [⟨[1, 2], some (0, 1), none⟩, ⟨[1, 2], none, some (0, 0)⟩, ⟨[1, 2], none, none⟩,
        ⟨[1, 2], none, some (1, 1)⟩, ⟨[1, 2], none, none⟩] := by
    simp [quickSort, quickSortHelper, partition, partLoop, getI, swapI]
  have hmem : (⟨[1, 2], none, some (0, 0)⟩ : SortStep) ∈ quickSort [1, 2] := by
    rw [heval]
    simp
  exact hall _ hmem 0 0 rfl rfl

/-- C3 (amended): in every emitted step of both recorders, a non-null
`comparing` field is a pair of two distinct indices; a non-null `swapping`
field is a pair of two distinct indices for `bubbleSort`, while `quickSort`
may emit `swapping` pairs with equal indices (a self-swap of an element
already in place). -/
theorem C3_distinct_pairs_amended (A : List Int) :
    (∀ s ∈ bubbleSort A,
      (∀ p q : Int, s.comparing = some (p, q) → p ≠ q) ∧
      (∀ p q : Int, s.swapping = some (p, q) → p ≠ q)) ∧
    (∀ s ∈ quickSort A, ∀ p q : Int, s.comparing = some (p, q) → p ≠ q) := by
  constructor
  · exact bubbleSort_steps_pred
      (fun st => (∀ p q : Int, st.comparing = some (p, q) → p ≠ q) ∧
        (∀ p q : Int, st.swapping = some (p, q) → p ≠ q))
      (fun a r => ⟨fun p q h => by simp at h; omega, fun p q h => by simp at h⟩)
      (fun a r => ⟨fun p q h => by simp at h, fun p q h => by simp at h; omega⟩)
      (fun a => ⟨fun p q h => by simp at h, fun p q h => by simp at h⟩) A
  · exact quickSort_steps_pred
      (fun st => ∀ p q : Int, st.comparing = some (p, q) → p ≠ q)
      (fun a r t hrt p q h => by simp at h; omega)
      (fun a r t p q h => by simp at h)
      (fun a p q h => by simp at h) A

theorem C3_distinct_pairs_amended_witness : (0 : Int) ≠ 1 :=
  ((C3_distinct_pairs_amended [2, 1]).1 ⟨[2, 1], some (0, 1), none⟩
    (by simp [bubbleSort, bubbleOuter, bubbleInner, getI, swapI])).1 0 1 rfl

/-- C4: For every input array and for both recorders, no emitted step has
both its `comparing` field and its `swapping` field non-null. -/
theorem C4_not_both_set (A : List Int) :
    (∀ s ∈ bubbleSort A, s.comparing = none ∨ s.swapping = none) ∧
    (∀ s ∈ quickSort A, s.comparing = none ∨ s.swapping = none) := by
  constructor
  · exact bubbleSort_steps_pred (fun st => st.comparing = none ∨ st.swapping = none)
      (fun a p => Or.inr rfl) (fun a p => Or.inl rfl) (fun a => Or.inl rfl) A
  · exact quickSort_steps_pred (fun st => st.comparing = none ∨ st.swapping = none)
      (fun a p q _ => Or.inr rfl) (fun a p q => Or.inl rfl) (fun a => Or.inl rfl) A

theorem C4_not_both_set_witness :
    (⟨[2, 1], some (0, 1), none⟩ : SortStep).comparing = none ∨
      (⟨[2, 1], some (0, 1), none⟩ : SortStep).swapping = none :=
  (C4_not_both_set [2, 1]).1 ⟨[2, 1], some (0, 1), none⟩
    (by simp [bubbleSort, bubbleOuter, bubbleInner, getI, swapI])

/-- C5: For every input array and for both recorders, every step whose
`swapping` field is a pair `(p, q)` records the array state before that swap
and is immediately followed by a step with `comparing` and `swapping` both
null whose array equals the swapping step's array with the entries at `p`
and `q` exchanged (`followOK`). -/
theorem C5_swap_follower (A : List Int) :
    followOK (bubbleSort A) ∧ followOK (quickSort A) :=
  ⟨bubbleSort_chain A, quickSort_chain A⟩

/-- C6: On input `[5, 3, 1]`, `bubbleSort` returns exactly the documented
sequence: compare (0,1), swap (0,1), cleared; compare (1,2), swap (1,2),
cleared; then the second pass compare (0,1), swap (0,1), cleared, ending
with array `[1, 3, 5]`. -/
theorem C6_scenario_531 :
    bubbleSort [5, 3, 1] =
      [⟨[5, 3, 1], some (0, 1), none⟩, ⟨[5, 3, 1], none, some (0, 1)⟩,
        ⟨[3, 5, 1], none, none⟩,
        ⟨[3, 5, 1], some (1, 2), none⟩, ⟨[3, 5, 1], none, some (1, 2)⟩,
        ⟨[3, 1, 5], none, none⟩,
        ⟨[3, 1, 5], some (0, 1), none⟩, ⟨[3, 1, 5], none, some (0, 1)⟩,
        ⟨[1, 3, 5], none, none⟩] := by
  simp [bubbleSort, bubbleOuter, bubbleInner, getI, swapI]

/-- C7: In every state the playback controller can reach from the initial
component state via its operations (play, pause, timer tick, step forward,
step backward, reset/regenerate, algorithm selection — each followed by the
animation effect React runs after the commit), `-1 ≤ currentStep ≤
sortSteps.length - 1`, and `isPlaying` is false whenever `currentStep =
sortSteps.length - 1`. -/
theorem C7_controller_invariant (acts : List Action) :
    ControllerInv (acts.foldl controllerStep initState) :=
  reachable_inv acts

/-- C8: For every step sequence and every step index outside
`[0, length-1]` (including `-1` and indices into an empty sequence), the
derived current view is the base array with no comparing or swapping
highlight. -/
theorem C8_out_of_range_view (sortSteps : List SortStep) (array : List Int)
    (currentStep : Int)
    (h : currentStep < 0 ∨ (sortSteps.length : Int) ≤ currentStep) :
    currentArray sortSteps array currentStep = array ∧
      currentComparing sortSteps currentStep = none ∧
      currentSwapping sortSteps currentStep = none := by
  unfold currentArray currentComparing currentSwapping
  exact ⟨if_neg (by omega), if_neg (by omega), if_neg (by omega)⟩

theorem C8_out_of_range_view_witness :
    currentArray [] [3] (-1) = [3] ∧ currentComparing [] (-1) = none ∧
      currentSwapping [] (-1) = none :=
  C8_out_of_range_view [] [3] (-1) (Or.inl (by norm_num))

/-- C9: The recorders are deterministic functions of the input array alone:
two runs on equal inputs yield identical step sequences (there is no
randomness inside `bubbleSort` or `quickSort`; randomness is confined to
`generateRandomArray`). -/
theorem C9_deterministic (A B : List Int) (h : A = B) :
    bubbleSort A = bubbleSort B ∧ quickSort A = quickSort B := by
  rw [h]
  exact ⟨rfl, rfl⟩

theorem C9_deterministic_witness :
    bubbleSort [3, 1] = bubbleSort [3, 1] ∧ quickSort [3, 1] = quickSort [3, 1] :=
  C9_deterministic [3, 1] [3, 1] rfl

/-- C10: For every input array `A` and for both recorders, every step in the
returned sequence (not only the last) has an array that is a permutation of
`A`; in particular it has the same length and the same multiset of values. -/
theorem C10_every_step_perm (A : List Int) :
    (∀ s ∈ bubbleSort A, s.array ~ A ∧ s.array.length = A.length) ∧
    (∀ s ∈ quickSort A, s.array ~ A ∧ s.array.length = A.length) := by
  constructor
  · intro s hs
    have h := bubbleSort_perm A s hs
    exact ⟨h, h.length_eq⟩
  · intro s hs
    have h := quickSort_perm A s hs
    exact ⟨h, h.length_eq⟩

theorem C10_every_step_perm_witness :
    (([2, 1] : List Int) ~ [2, 1] ∧ ([2, 1] : List Int).length = ([2, 1] : List Int).length) :=
  (C10_every_step_perm [2, 1]).1 ⟨[2, 1], some (0, 1), none⟩
    (by simp [bubbleSort, bubbleOuter, bubbleInner, getI, swapI])

end AlgoViz
